import Mathlib

/-!
Verification of the `plot-nr-running` repository's reconstruction-and-validation
engine against its natural-language specification.

The embedding translates the module-scope event loop of `check-nr-running.py`
(per-CPU run/idle interval reconstruction, consistency findings, finalize, and
the utilization walk) and the imbalance detector of `plot-nr-running.py`.
Python floats (trace timestamps) are modeled as exact rationals `ℚ`; Python
dictionaries keyed by CPU id are modeled as total functions from `ℕ` with
`Option`/default values mirroring `dict`/`defaultdict`; printed warnings are
modeled as appended diagnostic records, in the order the source prints them.
-/

namespace NrRunning

/-- Per-CPU scheduler state tracked by `check-nr-running.py` in the `cpu_state`
dictionary (string values `"Running"` / `"Idle"`).  A CPU absent from the
dictionary (spec state `Unknown`) is modeled as `none` below. -/
inductive CpuSt where
  | Running
  | Idle
deriving DecidableEq

/-- One parsed `sched_update_nr_running` trace event (the five regex capture
groups of `check-nr-running.py` line 100): pid, timestamp, cpu id, signed
queue-length change, absolute queue length after the change. -/
structure SchedEvent where
  pid : ℕ
  time : ℚ
  cpu : ℕ
  change : ℤ
  nr_running : ℕ
deriving DecidableEq

/-- The kinds of consistency diagnostics the event loop prints. -/
inductive DiagKind where
  | negativePriorQueueLength
  | arithmeticMismatch
  | stateMismatch
deriving DecidableEq

/-- One emitted diagnostic (a `WARNING:` print of the event loop), with the
event that triggered it. -/
structure Diag where
  kind : DiagKind
  cpu : ℕ
  time : ℚ
deriving DecidableEq

/-- The module-scope mutable state of `check-nr-running.py` lines 92-98.
`previous_line` (used only as print payload) is not modeled.  The printed
warnings are collected in `diags`. -/
structure EngineState where
  start_time : Option ℚ
  events_count : ℕ
  cpu_state : ℕ → Option CpuSt
  cpu_run_intervals : ℕ → List (ℚ × Option ℚ)
  cpu_nr_running : ℕ → Option ℕ
  inconsistent_events : ℕ → ℕ
  diags : List Diag

/-- Initial module state: empty dictionaries, zero counters. -/
def initState : EngineState :=
  ⟨none, 0, fun _ => none, fun _ => [], fun _ => none, fun _ => 0, []⟩

/-- `prev_nr_running = nr_running - change` (line 119). -/
def priorNr (e : SchedEvent) : ℤ := (e.nr_running : ℤ) - e.change

/-- `current_state` from `nr_running > 0` (lines 151-154). -/
def currentOf (e : SchedEvent) : CpuSt :=
  if 0 < e.nr_running then CpuSt.Running else CpuSt.Idle

/-- Implied previous state from `prev_nr_running > 0` (lines 174-178). -/
def priorOf (e : SchedEvent) : CpuSt :=
  if 0 < priorNr e then CpuSt.Running else CpuSt.Idle

/-- The arithmetic check of lines 129-137: fires when the CPU has a previously
observed `nr_running` and `nr_running - cpu_nr_running[cpu] != change`. -/
def arithFlag (st : EngineState) (e : SchedEvent) : Bool :=
  match st.cpu_nr_running e.cpu with
  | some old => decide ((e.nr_running : ℤ) - (old : ℤ) ≠ e.change)
  | none => false

/-- The prior-state consistency check of lines 139-146: runs only when the
arithmetic check did not fire (`recorded_inconsistent_event == False`) and the
CPU has a tracked state; fires when the tracked state contradicts the implied
previous queue length. -/
def stateFlag (st : EngineState) (e : SchedEvent) : Bool :=
  if arithFlag st e then false
  else
    match st.cpu_state e.cpu with
    | some old =>
        decide ((old = CpuSt.Running ∧ priorNr e = 0) ∨ (old = CpuSt.Idle ∧ 0 < priorNr e))
    | none => false

/-- The diagnostics printed while handling one event, in source order: the
unconditional `nr_running - change < 0` warning of lines 120-122, then the
arithmetic-mismatch warning (lines 132-137), then the state-mismatch warning
(lines 141-146). -/
def stepDiags (st : EngineState) (e : SchedEvent) : List Diag :=
  (if priorNr e < 0 then [⟨DiagKind.negativePriorQueueLength, e.cpu, e.time⟩] else [])
    ++ (if arithFlag st e then [⟨DiagKind.arithmeticMismatch, e.cpu, e.time⟩] else [])
    ++ (if stateFlag st e then [⟨DiagKind.stateMismatch, e.cpu, e.time⟩] else [])

/-- `cpu_run_intervals[cpu][-1] = (start, t)` (lines 169-171 and 206-208):
replace the last interval's end, keeping its start. -/
def closeLast (t : ℚ) : List (ℚ × Option ℚ) → List (ℚ × Option ℚ)
  | [] => []
  | [(s, _)] => [(s, some t)]
  | x :: rest => x :: closeLast t rest

/-- `start_time` after one event: set on the first event (`events_count == 1`,
lines 124-125), untouched afterwards. -/
def stepStartTime (st : EngineState) (e : SchedEvent) : Option ℚ :=
  if st.events_count + 1 = 1 then some e.time else st.start_time

/-- `inconsistent_events` after one event: lines 133 and 143 (`+= 1` under the
arithmetic or the gated state check). -/
def stepInconsistent (st : EngineState) (e : SchedEvent) : ℕ → ℕ :=
  if arithFlag st e || stateFlag st e then
    Function.update st.inconsistent_events e.cpu (st.inconsistent_events e.cpu + 1)
  else st.inconsistent_events

/-- The new interval list of `cpu` after one event: the state-transition
bookkeeping of lines 156-197.  For a CPU with a known state: no change when the
state is unchanged, open at `e.time` on Idle→Running, close the last interval
at `e.time` on Running→Idle.  For a first event: branch on the implied previous
state computed from `prev_nr_running`, synthesizing from `start_time`. -/
def stepNewIntervals (st : EngineState) (e : SchedEvent) : List (ℚ × Option ℚ) :=
  let s := (stepStartTime st e).getD e.time
  let current := currentOf e
  let l := st.cpu_run_intervals e.cpu
  match st.cpu_state e.cpu with
  | some old =>
      if current = old then l
      else if old = CpuSt.Idle then l ++ [(e.time, none)]
      else closeLast e.time l
  | none =>
      if current = priorOf e then
        (if current = CpuSt.Running then l ++ [(s, none)] else l)
      else
        (if current = CpuSt.Running then l ++ [(s, some s), (e.time, none)]
         else l ++ [(s, some e.time)])

/-- The new tracked state of `cpu` after one event (lines 156-173). -/
def stepNewState (st : EngineState) (e : SchedEvent) : Option CpuSt :=
  match st.cpu_state e.cpu with
  | some old => if currentOf e = old then some old else some (currentOf e)
  | none => some (currentOf e)

/-- One iteration of the event loop of `check-nr-running.py` lines 112-197 for
an accepted (regex-matching) event. -/
def step (st : EngineState) (e : SchedEvent) : EngineState :=
  { start_time := stepStartTime st e
    events_count := st.events_count + 1
    cpu_state := Function.update st.cpu_state e.cpu (stepNewState st e)
    cpu_run_intervals := Function.update st.cpu_run_intervals e.cpu (stepNewIntervals st e)
    cpu_nr_running := Function.update st.cpu_nr_running e.cpu (some e.nr_running)
    inconsistent_events := stepInconsistent st e
    diags := st.diags ++ stepDiags st e }

/-- The whole event loop over the accepted events, in file order. -/
def processEvents (evs : List SchedEvent) : EngineState :=
  evs.foldl step initState

/-- The finalize loop of lines 203-213: `stop_time = point_time`; every CPU in
`cpu_state` with state Running has its open interval closed at `stop_time`,
every CPU with state Idle gets the zero-length interval `(stop_time, stop_time)`
appended.  CPUs never observed are absent from `cpu_state` and are untouched. -/
def finalizeEngine (st : EngineState) (stop : ℚ) : EngineState :=
  { st with
    cpu_run_intervals := fun c =>
      match st.cpu_state c with
      | some CpuSt.Running => closeLast stop (st.cpu_run_intervals c)
      | some CpuSt.Idle => st.cpu_run_intervals c ++ [(stop, some stop)]
      | none => st.cpu_run_intervals c }

/-- Full run: event loop followed by finalize at `stop_time`, the timestamp of
the last accepted event (the value of the loop variable `point_time` at line
203).  With no accepted events the source crashes at line 203 (`point_time`
undefined); the model leaves the state unfinalized in that case. -/
def runEngine (evs : List SchedEvent) : EngineState :=
  match evs.getLast? with
  | some e => finalizeEngine (processEvents evs) e.time
  | none => processEvents evs

/-- The per-CPU utilization walk of lines 226-244, fold state
`(time[0], time[1], last_idle_transition)`.  Mirrors the Python truthiness test
`if end:`: an interval participates only when its end is set and nonzero. -/
def utilAux : (ℚ × ℚ × ℚ) → List (ℚ × Option ℚ) → ℚ × ℚ
  | (t0, t1, _), [] => (t0, t1)
  | (t0, t1, last), (s, some e) :: rest =>
      if e ≠ 0 then
        utilAux (t0 + (e - s), if 0 ≤ last then t1 + (s - last) else t1, e) rest
      else utilAux (t0, t1, last) rest
  | (t0, t1, last), (_, none) :: rest => utilAux (t0, t1, last) rest

/-- `(runtime seconds, idle seconds)` for one CPU's interval list, starting from
`time=[0.0, 0.0]` and `last_idle_transition=-1.0` (lines 226-227). -/
def cpuUtil (l : List (ℚ × Option ℚ)) : ℚ × ℚ := utilAux (0, 0, -1) l

/-- Timestamp of the first event of a trace (`start_time`), defaulting to 0 for
the empty trace. -/
def startOf (evs : List SchedEvent) : ℚ :=
  match evs.head? with
  | some e => e.time
  | none => 0

/-- Timestamp of the last event of a trace (`stop_time`), defaulting to 0 for
the empty trace. -/
def lastOf (evs : List SchedEvent) : ℚ :=
  match evs.getLast? with
  | some e => e.time
  | none => 0

/-! ### Line-level processing (`check-nr-running.py` lines 100-110)

The regex
`^.*-(\d+).*\s(\d+[.]\d+): sched_update_nr_running: cpu=(\d+) change=([-]?\d+) nr_running=(\d+)`
is embedded as a direct parser for the canonical single-occurrence record
shape; its exact capture behaviour on degenerate lines is irrelevant to the
claims, which only distinguish success from failure. -/

/-- The marker substring tested on non-matching lines (line 107), as a
character list (all character-level text processing below works on `List Char`
so that it is structurally computable). -/
def marker : List Char := "sched_update_nr_running:".data

/-- Whether `pat` occurs contiguously inside `cs` (Python's `in` operator). -/
def containsSeq (pat : List Char) : List Char → Bool
  | [] => pat.isEmpty
  | c :: rest => pat.isPrefixOf (c :: rest) || containsSeq pat rest

/-- `"sched_update_nr_running:" in line` (line 107). -/
def containsMarker (line : String) : Bool := containsSeq marker line.data

/-- Split at the first occurrence of `pat`, returning the text before and after
it, or `none` when `pat` does not occur. -/
def splitFirst (pat : List Char) : List Char → Option (List Char × List Char)
  | [] => if pat.isEmpty then some ([], []) else none
  | c :: rest =>
      if pat.isPrefixOf (c :: rest) then some ([], (c :: rest).drop pat.length)
      else (splitFirst pat rest).map (fun p => (c :: p.1, p.2))

/-- Numeric value of a run of decimal digits. -/
def digitsVal (cs : List Char) : ℕ := cs.foldl (fun n c => 10 * n + (c.toNat - 48)) 0

/-- Parse `\d+`: a nonempty digit run, returning the value and the rest. -/
def takeDigits (cs : List Char) : Option (ℕ × List Char) :=
  let d := cs.takeWhile Char.isDigit
  if d.isEmpty then none else some (digitsVal d, cs.drop d.length)

/-- Parse a whole token of shape `\d+[.]\d+` as an exact rational. -/
def parseTimestamp (cs : List Char) : Option ℚ :=
  match takeDigits cs with
  | some (x, rest) =>
      match rest with
      | '.' :: rest2 =>
          let d := rest2.takeWhile Char.isDigit
          if d.isEmpty || !(rest2.drop d.length).isEmpty then none
          else some ((x : ℚ) + (digitsVal d : ℚ) / ((10 : ℚ) ^ d.length))
      | _ => none
  | none => none

/-- Parse `[-]?\d+`, returning the value and the rest. -/
def parseSigned (cs : List Char) : Option (ℤ × List Char) :=
  match cs with
  | '-' :: rest => (takeDigits rest).map (fun p => (-(p.1 : ℤ), p.2))
  | _ => (takeDigits cs).map (fun p => ((p.1 : ℤ), p.2))

/-- Split on characters satisfying `p`, keeping (possibly empty) groups. -/
def splitChars (p : Char → Bool) : List Char → List (List Char)
  | [] => [[]]
  | c :: rest =>
      let r := splitChars p rest
      if p c then [] :: r
      else
        match r with
        | g :: gs => (c :: g) :: gs
        | [] => [[c]]

/-- Parse the part of the line before `: sched_update_nr_running: ` — regex
`^.*-(\d+).*\s(\d+[.]\d+)`: a pid written after a `-`, and a
whitespace-preceded timestamp ending the text. -/
def parsePre (pre : List Char) : Option (ℕ × ℚ) :=
  let raw := splitChars Char.isWhitespace pre
  if raw.length < 2 then none
  else
    match (raw.filter (fun t => !t.isEmpty)).getLast? with
    | some ts =>
        match parseTimestamp ts with
        | some time =>
            match splitChars (fun c => c = '-') pre with
            | [] => none
            | [_] => none
            | _ :: rest =>
                match rest.reverse.find? (fun q => !(q.takeWhile Char.isDigit).isEmpty) with
                | some q => some (digitsVal (q.takeWhile Char.isDigit), time)
                | none => none
        | none => none
    | none => none

/-- The text between the timestamp and the cpu field in the canonical record. -/
def eventSep : List Char := ": sched_update_nr_running: cpu=".data

/-- The event parser: `some` event when the line matches the canonical record
shape of the regex at line 100, `none` otherwise. -/
def parseLine (line : String) : Option SchedEvent :=
  match splitFirst eventSep line.data with
  | some (pre, post) =>
      match parsePre pre, takeDigits post with
      | some (pid, time), some (cpu, r1) =>
          if (" change=".data).isPrefixOf r1 then
            match parseSigned (r1.drop 8) with
            | some (change, r2) =>
                if (" nr_running=".data).isPrefixOf r2 then
                  match takeDigits (r2.drop 12) with
                  | some (nr, _) => some ⟨pid, time, cpu, change, nr⟩
                  | none => none
                else none
            | none => none
          else none
      | _, _ => none
  | none => none

/-- Line-loop state: engine state plus the line counter and the emitted
malformed-recognized-event diagnostics (the line numbers printed at line 108). -/
structure RunState where
  engine : EngineState
  line_count : ℕ
  malformed : List ℕ

/-- State at the top of the event loop: header already consumed
(`line_count = 1`). -/
def initRun : RunState := ⟨initState, 1, []⟩

/-- One iteration of `for line in data_file` (lines 101-110 plus the event
processing): a matching line is processed by `step`; a non-matching line that
contains the marker substring produces a malformed-recognized-event diagnostic;
any other non-matching line is skipped silently.  No line aborts processing. -/
def processLine (st : RunState) (line : String) : RunState :=
  let lc := st.line_count + 1
  match parseLine line with
  | some e => ⟨step st.engine e, lc, st.malformed⟩
  | none =>
      if containsMarker line then ⟨st.engine, lc, st.malformed ++ [lc]⟩
      else ⟨st.engine, lc, st.malformed⟩

/-- The whole line loop from an arbitrary intermediate state. -/
def processLinesFrom (st : RunState) (lines : List String) : RunState :=
  lines.foldl processLine st

/-! ### The imbalance detector (`plot-nr-running.py` lines 191-228)

The detector consumes the `(time_axis[i], map_values[i])` pairs of the second
loop of `process_report`; `diff` is `max(row) - min(row)`. -/

/-- `max(row) - min(row)` (lines 199-201), with 0 for an empty row (the source
never builds one). -/
def spread (row : List ℤ) : ℤ := (row.max?.getD 0) - (row.min?.getD 0)

/-- Detector state: collected `imbalances` (the endpoints of each reported
window; the constant `threshold` y-coordinates stored for plotting are
dropped), and `last_imbalance_start` with the source's literal `0` sentinel. -/
structure ImbState where
  imbalances : List (ℚ × ℚ)
  last_imbalance_start : ℚ
deriving DecidableEq

/-- One iteration of the loop body, lines 203-213. -/
def imbStep (threshold : ℤ) (duration : ℚ) (st : ImbState) (td : ℚ × ℤ) : ImbState :=
  let time := td.1
  let diff := td.2
  let st1 :=
    if threshold ≤ diff ∧ st.last_imbalance_start = 0 then
      { st with last_imbalance_start := time }
    else st
  if diff < threshold ∧ st1.last_imbalance_start ≠ 0 then
    let st2 :=
      if duration ≤ time - st1.last_imbalance_start then
        { st1 with imbalances := st1.imbalances ++ [(st1.last_imbalance_start, time)] }
      else st1
    { st2 with last_imbalance_start := 0 }
  else st1

/-- The detector loop over the `(time, diff)` sequence, starting from
`imbalances = []`, `last_imbalance_start = 0` (lines 143, 191). -/
def imbRun (threshold : ℤ) (duration : ℚ) (xs : List (ℚ × ℤ)) : ImbState :=
  xs.foldl (imbStep threshold duration) ⟨[], 0⟩

/-- The reported windows: the loop plus the end-of-stream check of lines
219-224, which closes a still-open window at `time_axis[-1]` when it already
met the minimum duration. -/
def reportImbalances (threshold : ℤ) (duration : ℚ) (xs : List (ℚ × ℤ)) : List (ℚ × ℚ) :=
  let st := imbRun threshold duration xs
  match xs.getLast? with
  | some last =>
      if st.last_imbalance_start ≠ 0 ∧ duration ≤ last.1 - st.last_imbalance_start then
        st.imbalances ++ [(st.last_imbalance_start, last.1)]
      else st.imbalances
  | none => st.imbalances

/-- The detector over `(time, row)` pairs, computing `diff = max - min` of each
row as lines 199-201 do. -/
def processImbalances (threshold : ℤ) (duration : ℚ)
    (rows : List (ℚ × List ℤ)) : List (ℚ × ℚ) :=
  reportImbalances threshold duration (rows.map (fun p => (p.1, spread p.2)))

/-! The following two definitions follow the WORDS OF THE SPEC (§4.4), not the
source: the open window is an `Option ℚ` rather than the source's `0` sentinel.
They exist to be compared with `imbStep`/`reportImbalances` above. -/

/-- Spec-words detector state: "Track `open_window_start`". -/
structure ImbSpecState where
  windows : List (ℚ × ℚ)
  openStart : Option ℚ
deriving DecidableEq

/-- Spec-words step: "set it when spread first reaches/exceeds `threshold`
(only if not already open); clear it and, if
`(current_time − open_window_start) ≥ min_duration`, emit an `ImbalanceWindow`,
when spread drops back below `threshold`." -/
def imbSpecStep (threshold : ℤ) (duration : ℚ) (st : ImbSpecState) (td : ℚ × ℤ) :
    ImbSpecState :=
  match st.openStart with
  | none => if threshold ≤ td.2 then { st with openStart := some td.1 } else st
  | some s =>
      if td.2 < threshold then
        { windows := st.windows ++ (if duration ≤ td.1 - s then [(s, td.1)] else []),
          openStart := none }
      else st

/-- Spec-words reported windows: "At stream end, if a window is still open and
has already met the minimum duration, it is emitted using `stop_time` as its
end." -/
def specImbalances (threshold : ℤ) (duration : ℚ) (xs : List (ℚ × ℤ)) : List (ℚ × ℚ) :=
  let st := xs.foldl (imbSpecStep threshold duration) ⟨[], none⟩
  match st.openStart, xs.getLast? with
  | some s, some last =>
      if duration ≤ last.1 - s then st.windows ++ [(s, last.1)] else st.windows
  | _, _ => st.windows

/-! ### Interval-chain predicates

Well-formedness of one CPU's interval list: intervals chained left to right
inside `[lo, hi]`, all closed (`ChainCl`) or all closed except a final open one
(`ChainOp`). -/

/-- All intervals closed: starts after `lo`, each start ≤ its end, ends ≤ `hi`,
and each interval starts no earlier than the previous end. -/
inductive ChainCl : ℚ → ℚ → List (ℚ × Option ℚ) → Prop where
  | nil (lo hi : ℚ) : ChainCl lo hi []
  | cons {lo hi s e : ℚ} {rest : List (ℚ × Option ℚ)} :
      lo ≤ s → s ≤ e → e ≤ hi → ChainCl e hi rest → ChainCl lo hi ((s, some e) :: rest)

/-- Closed intervals followed by exactly one open interval at the end. -/
inductive ChainOp : ℚ → ℚ → List (ℚ × Option ℚ) → Prop where
  | single {lo hi s : ℚ} : lo ≤ s → s ≤ hi → ChainOp lo hi [(s, none)]
  | cons {lo hi s e : ℚ} {rest : List (ℚ × Option ℚ)} :
      lo ≤ s → s ≤ e → e ≤ hi → ChainOp e hi rest → ChainOp lo hi ((s, some e) :: rest)

theorem ChainCl.mono_cl {lo hi hi' : ℚ} {l : List (ℚ × Option ℚ)}
    (h : ChainCl lo hi l) (hh : hi ≤ hi') : ChainCl lo hi' l := by
  induction h with
  | nil => exact ChainCl.nil _ _
  | cons h1 h2 h3 _ ih => exact ChainCl.cons h1 h2 (le_trans h3 hh) (ih hh)

theorem ChainOp.mono_op {lo hi hi' : ℚ} {l : List (ℚ × Option ℚ)}
    (h : ChainOp lo hi l) (hh : hi ≤ hi') : ChainOp lo hi' l := by
  induction h with
  | single h1 h2 => exact ChainOp.single h1 (le_trans h2 hh)
  | cons h1 h2 h3 _ ih => exact ChainOp.cons h1 h2 (le_trans h3 hh) (ih hh)

theorem ChainOp.ne_nil {lo hi : ℚ} {l : List (ℚ × Option ℚ)} (h : ChainOp lo hi l) :
    l ≠ [] := by
  cases h <;> simp

/-- Opening a new interval at time `t` after a fully closed history. -/
theorem ChainCl.append_open {lo hi t : ℚ} {l : List (ℚ × Option ℚ)}
    (h : ChainCl lo hi l) (hlo : lo ≤ hi) (ht : hi ≤ t) :
    ChainOp lo t (l ++ [(t, none)]) := by
  induction h with
  | nil lo hi => exact ChainOp.single (le_trans hlo ht) le_rfl
  | cons h1 h2 h3 _ ih =>
      exact ChainOp.cons h1 h2 (le_trans h3 ht) (ih h3 ht)

/-- Appending the zero-length terminal interval `(hi, hi)`. -/
theorem ChainCl.append_closed {lo hi : ℚ} {l : List (ℚ × Option ℚ)}
    (h : ChainCl lo hi l) (hlo : lo ≤ hi) : ChainCl lo hi (l ++ [(hi, some hi)]) := by
  induction h with
  | nil lo hi => exact ChainCl.cons hlo le_rfl le_rfl (ChainCl.nil _ _)
  | cons h1 h2 h3 _ ih => exact ChainCl.cons h1 h2 h3 (ih h3)

/-- `closeLast` on a list whose tail is nonempty walks past the head. -/
theorem closeLast_cons_of_ne_nil {t : ℚ} {x : ℚ × Option ℚ} {rest : List (ℚ × Option ℚ)}
    (h : rest ≠ []) : closeLast t (x :: rest) = x :: closeLast t rest := by
  cases rest with
  | nil => exact absurd rfl h
  | cons y ys => cases x with | mk s e? => rfl

/-- Closing the open interval at time `t ≥ hi` yields a fully closed chain. -/
theorem ChainOp.close {lo hi t : ℚ} {l : List (ℚ × Option ℚ)}
    (h : ChainOp lo hi l) (ht : hi ≤ t) : ChainCl lo t (closeLast t l) := by
  induction h with
  | single h1 h2 =>
      exact ChainCl.cons h1 (le_trans h2 ht) le_rfl (ChainCl.nil _ _)
  | cons h1 h2 h3 h4 ih =>
      rw [closeLast_cons_of_ne_nil h4.ne_nil]
      exact ChainCl.cons h1 h2 (le_trans h3 ht) (ih ht)

/-- An open chain decomposes as closed intervals plus a final open interval,
and `closeLast` closes exactly that one. -/
theorem ChainOp.decomp {lo hi : ℚ} {l : List (ℚ × Option ℚ)} (h : ChainOp lo hi l)
    (t : ℚ) : ∃ l' s, l = l' ++ [(s, none)] ∧ closeLast t l = l' ++ [(s, some t)] := by
  induction h with
  | single h1 h2 => exact ⟨[], _, rfl, rfl⟩
  | @cons lo' hi' s' e' rest h1 h2 h3 h4 ih =>
      obtain ⟨l', s, hl, hcl⟩ := ih
      refine ⟨(s', some e') :: l', s, by rw [hl]; rfl, ?_⟩
      rw [closeLast_cons_of_ne_nil h4.ne_nil, hcl]; rfl

theorem ChainCl.start_le {lo hi : ℚ} {l : List (ℚ × Option ℚ)} (h : ChainCl lo hi l) :
    ∀ p ∈ l, lo ≤ p.1 := by
  induction h with
  | nil => simp
  | cons h1 h2 h3 _ ih =>
      intro p hp
      rcases List.mem_cons.1 hp with hh | hh
      · rw [hh]; exact h1
      · exact le_trans (le_trans h1 h2) (ih p hh)

theorem ChainCl.closed {lo hi : ℚ} {l : List (ℚ × Option ℚ)} (h : ChainCl lo hi l) :
    ∀ p ∈ l, ∃ e, p.2 = some e ∧ p.1 ≤ e := by
  induction h with
  | nil => simp
  | cons h1 h2 h3 _ ih =>
      intro p hp
      rcases List.mem_cons.1 hp with hh | hh
      · rw [hh]; exact ⟨_, rfl, h2⟩
      · exact ih p hh

theorem ChainCl.pairwise_start {lo hi : ℚ} {l : List (ℚ × Option ℚ)}
    (h : ChainCl lo hi l) : l.Pairwise (fun a b => a.1 ≤ b.1) := by
  induction h with
  | nil => exact List.Pairwise.nil
  | cons h1 h2 h3 h4 ih =>
      exact List.Pairwise.cons (fun b hb => le_trans h2 (h4.start_le b hb)) ih

/-- The end of a closed or open interval, for stating non-overlap: an open
interval counts as ending at its own start. -/
def endOf (p : ℚ × Option ℚ) : ℚ := p.2.getD p.1

theorem ChainCl.pairwise_sep {lo hi : ℚ} {l : List (ℚ × Option ℚ)}
    (h : ChainCl lo hi l) : l.Pairwise (fun a b => endOf a ≤ b.1) := by
  induction h with
  | nil => exact List.Pairwise.nil
  | cons h1 h2 h3 h4 ih =>
      exact List.Pairwise.cons (fun b hb => h4.start_le b hb) ih

theorem ChainOp.dropLast_closed {lo hi : ℚ} {l : List (ℚ × Option ℚ)}
    (h : ChainOp lo hi l) : ∀ p ∈ l.dropLast, p.2.isSome := by
  induction h with
  | single h1 h2 => simp
  | cons h1 h2 h3 h4 ih =>
      intro p hp
      obtain ⟨y, ys, hys⟩ := List.exists_cons_of_ne_nil h4.ne_nil
      rw [hys] at hp ih
      rcases List.mem_cons.1 (by simpa using hp) with hh | hh
      · rw [hh]; rfl
      · exact ih p hh

/-! ### Head/last helpers for interval lists -/

/-- Start of the first interval of a list (0 for the empty list). -/
def headStart (l : List (ℚ × Option ℚ)) : ℚ :=
  match l.head? with
  | some p => p.1
  | none => 0

/-- End of the last interval of a list, an open interval counting as ending at
its start (0 for the empty list). -/
def lastEnd (l : List (ℚ × Option ℚ)) : ℚ :=
  match l.getLast? with
  | some p => endOf p
  | none => 0

theorem headStart_append_of_ne_nil {l l2 : List (ℚ × Option ℚ)} (h : l ≠ []) :
    headStart (l ++ l2) = headStart l := by
  cases l with
  | nil => exact absurd rfl h
  | cons x xs => rfl

theorem closeLast_ne_nil {t : ℚ} {l : List (ℚ × Option ℚ)} (h : l ≠ []) :
    closeLast t l ≠ [] := by
  cases l with
  | nil => exact absurd rfl h
  | cons x xs =>
      cases xs with
      | nil => cases x; simp [closeLast]
      | cons y ys => rw [closeLast_cons_of_ne_nil (by simp)]; simp

theorem headStart_closeLast (t : ℚ) (l : List (ℚ × Option ℚ)) :
    headStart (closeLast t l) = headStart l := by
  cases l with
  | nil => rfl
  | cons x xs =>
      cases xs with
      | nil => cases x; rfl
      | cons y ys => rw [closeLast_cons_of_ne_nil (by simp)]; rfl

theorem lastEnd_concat (l : List (ℚ × Option ℚ)) (p : ℚ × Option ℚ) :
    lastEnd (l ++ [p]) = endOf p := by
  simp [lastEnd, List.getLast?_concat]

theorem lastEnd_closeLast {t : ℚ} {l : List (ℚ × Option ℚ)} (h : l ≠ []) :
    lastEnd (closeLast t l) = t := by
  induction l with
  | nil => exact absurd rfl h
  | cons x xs ih =>
      cases xs with
      | nil => cases x; simp [closeLast, lastEnd, endOf]
      | cons y ys =>
          rw [closeLast_cons_of_ne_nil (by simp)]
          have h2 : closeLast t (y :: ys) ≠ [] := closeLast_ne_nil (by simp)
          obtain ⟨z, zs, hz⟩ := List.exists_cons_of_ne_nil h2
          have := ih (by simp)
          rw [hz] at this ⊢
          simpa [lastEnd, List.getLast?_cons_cons] using this

theorem lastEnd_cons_of_ne_nil {x : ℚ × Option ℚ} {rest : List (ℚ × Option ℚ)}
    (h : rest ≠ []) : lastEnd (x :: rest) = lastEnd rest := by
  cases rest with
  | nil => exact absurd rfl h
  | cons y ys => simp [lastEnd, List.getLast?_cons_cons]

/-! ### The utilization walk telescopes over a closed chain -/

/-- Over a closed chain with positive endpoints and a nonnegative
`last_idle_transition`, the utilization walk accumulates exactly the distance
from `last` to the chain's final end: each closed interval `[s, e]` adds
`(e - s)` runtime plus `(s - last)` idle, telescoping. -/
theorem utilAux_sum {lo hi : ℚ} {l : List (ℚ × Option ℚ)}
    (h : ChainCl lo hi l) (hlo : 0 < lo) :
    ∀ t0 t1 last : ℚ, 0 ≤ last →
      (utilAux (t0, t1, last) l).1 + (utilAux (t0, t1, last) l).2
        = t0 + t1 + ((if l = [] then last else lastEnd l) - last) := by
  induction h with
  | nil lo hi =>
      intro t0 t1 last _
      simp [utilAux]
  | @cons lo hi s e rest h1 h2 h3 h4 ih =>
      intro t0 t1 last hlast
      have hlo' : 0 < lo := hlo
      have he : 0 < e := lt_of_lt_of_le hlo (le_trans h1 h2)
      have hred : utilAux (t0, t1, last) ((s, some e) :: rest)
          = utilAux (t0 + (e - s), t1 + (s - last), e) rest := by
        simp only [utilAux, if_pos (ne_of_gt he), if_pos hlast]
      rw [hred, ih he (t0 + (e - s)) (t1 + (s - last)) e (le_of_lt he)]
      by_cases hr : rest = []
      · subst hr
        simp [lastEnd, endOf]
        ring
      · rw [if_neg hr, if_neg (by simp), lastEnd_cons_of_ne_nil hr]
        ring

/-- The utilization walk over a nonempty closed chain with positive endpoints:
runtime + idle = (end of last interval) − (start of first interval). -/
theorem cpuUtil_sum {lo hi : ℚ} {l : List (ℚ × Option ℚ)}
    (h : ChainCl lo hi l) (hlo : 0 < lo) (hne : l ≠ []) :
    (cpuUtil l).1 + (cpuUtil l).2 = lastEnd l - headStart l := by
  cases h with
  | nil => exact absurd rfl hne
  | @cons _ _ s e rest h1 h2 h3 h4 =>
      have he : 0 < e := lt_of_lt_of_le hlo (le_trans h1 h2)
      have hred : cpuUtil ((s, some e) :: rest) = utilAux (0 + (e - s), 0, e) rest := by
        simp only [cpuUtil, utilAux, if_pos (ne_of_gt he)]
        rw [if_neg (by norm_num)]
      rw [hred, utilAux_sum h4 he (0 + (e - s)) 0 e (le_of_lt he)]
      by_cases hr : rest = []
      · subst hr
        simp [lastEnd, headStart, endOf]
      · rw [if_neg hr, lastEnd_cons_of_ne_nil hr]
        simp [headStart]

/-! ### Step characterization lemmas -/

theorem step_cpu_state_other {st : EngineState} {e : SchedEvent} {c : ℕ} (hc : c ≠ e.cpu) :
    (step st e).cpu_state c = st.cpu_state c := by
  simp [step, Function.update_noteq hc]

theorem step_intervals_other {st : EngineState} {e : SchedEvent} {c : ℕ} (hc : c ≠ e.cpu) :
    (step st e).cpu_run_intervals c = st.cpu_run_intervals c := by
  simp [step, Function.update_noteq hc]

theorem step_cpu_state_self (st : EngineState) (e : SchedEvent) :
    (step st e).cpu_state e.cpu = stepNewState st e := by
  simp [step]

theorem step_intervals_self (st : EngineState) (e : SchedEvent) :
    (step st e).cpu_run_intervals e.cpu = stepNewIntervals st e := by
  simp [step]

theorem step_start_time_of_count_ne {st : EngineState} {e : SchedEvent}
    (h : st.events_count ≠ 0) : (step st e).start_time = st.start_time := by
  simp only [step, stepStartTime]
  rw [if_neg (by omega)]

theorem stepNewState_ne_none (st : EngineState) (e : SchedEvent) :
    stepNewState st e ≠ none := by
  unfold stepNewState
  split
  · split <;> simp
  · simp

theorem currentOf_running {e : SchedEvent} :
    currentOf e = CpuSt.Running ↔ 0 < e.nr_running := by
  by_cases h : 0 < e.nr_running <;> simp [currentOf, h]

theorem currentOf_idle {e : SchedEvent} :
    currentOf e = CpuSt.Idle ↔ ¬ 0 < e.nr_running := by
  by_cases h : 0 < e.nr_running <;> simp [currentOf, h]

theorem priorOf_running {e : SchedEvent} :
    priorOf e = CpuSt.Running ↔ 0 < priorNr e := by
  by_cases h : 0 < priorNr e <;> simp [priorOf, h]

theorem priorOf_idle {e : SchedEvent} :
    priorOf e = CpuSt.Idle ↔ ¬ 0 < priorNr e := by
  by_cases h : 0 < priorNr e <;> simp [priorOf, h]

theorem processEvents_concat (evs : List SchedEvent) (e : SchedEvent) :
    processEvents (evs ++ [e]) = step (processEvents evs) e := by
  simp [processEvents, List.foldl_append]

theorem startOf_concat {evs : List SchedEvent} (e : SchedEvent) (h : evs ≠ []) :
    startOf (evs ++ [e]) = startOf evs := by
  cases evs with
  | nil => exact absurd rfl h
  | cons x xs => rfl

theorem lastOf_concat (evs : List SchedEvent) (e : SchedEvent) :
    lastOf (evs ++ [e]) = e.time := by
  simp [lastOf, List.getLast?_concat]

/-! ### The reconstruction invariant -/

/-- Invariant of the event loop after a nonempty, globally time-sorted prefix
`evs` of accepted events.  `startOf evs` is the tracked `start_time`, and the
timestamp `lastOf evs` of the last processed event bounds every recorded
interval endpoint.  Per CPU: an untracked CPU has no intervals; a Running CPU
owns an open chain, an Idle CPU a closed chain; and if a CPU's first event
implies presence from trace start (`nr_running > 0` or implied previous queue
length > 0), its interval list is nonempty and starts at `start_time`. -/
structure EngInv (evs : List SchedEvent) (st : EngineState) : Prop where
  start_eq : st.start_time = some (startOf evs)
  count_ne : st.events_count ≠ 0
  lo_le_hi : startOf evs ≤ lastOf evs
  state_none : ∀ c, st.cpu_state c = none ↔ evs.filter (fun x => x.cpu = c) = []
  none_nil : ∀ c, st.cpu_state c = none → st.cpu_run_intervals c = []
  run_chain : ∀ c, st.cpu_state c = some CpuSt.Running →
      ChainOp (startOf evs) (lastOf evs) (st.cpu_run_intervals c)
  idle_chain : ∀ c, st.cpu_state c = some CpuSt.Idle →
      ChainCl (startOf evs) (lastOf evs) (st.cpu_run_intervals c)
  first_ok : ∀ c f, (evs.filter (fun x => x.cpu = c)).head? = some f →
      (0 < f.nr_running ∨ 0 < priorNr f) →
      st.cpu_run_intervals c ≠ [] ∧ headStart (st.cpu_run_intervals c) = startOf evs

theorem stepNewIntervals_known_same {st : EngineState} {e : SchedEvent} {old : CpuSt}
    (h : st.cpu_state e.cpu = some old) (hco : currentOf e = old) :
    stepNewIntervals st e = st.cpu_run_intervals e.cpu := by
  simp [stepNewIntervals, h, hco]

theorem stepNewIntervals_idle_run {st : EngineState} {e : SchedEvent}
    (h : st.cpu_state e.cpu = some CpuSt.Idle) (hco : currentOf e = CpuSt.Running) :
    stepNewIntervals st e = st.cpu_run_intervals e.cpu ++ [(e.time, none)] := by
  simp [stepNewIntervals, h, hco]

theorem stepNewIntervals_run_idle {st : EngineState} {e : SchedEvent}
    (h : st.cpu_state e.cpu = some CpuSt.Running) (hco : currentOf e = CpuSt.Idle) :
    stepNewIntervals st e = closeLast e.time (st.cpu_run_intervals e.cpu) := by
  simp [stepNewIntervals, h, hco]

theorem stepNewState_known {st : EngineState} {e : SchedEvent} {old : CpuSt}
    (h : st.cpu_state e.cpu = some old) :
    stepNewState st e = some (if currentOf e = old then old else currentOf e) := by
  by_cases hco : currentOf e = old <;> simp [stepNewState, h, hco]

theorem stepNewState_unknown {st : EngineState} {e : SchedEvent}
    (h : st.cpu_state e.cpu = none) : stepNewState st e = some (currentOf e) := by
  simp [stepNewState, h]

theorem stepNewIntervals_unknown {st : EngineState} {e : SchedEvent} {s0 : ℚ}
    (h : st.cpu_state e.cpu = none) (hs : st.start_time = some s0)
    (hcn : st.events_count ≠ 0) :
    stepNewIntervals st e =
      (if currentOf e = priorOf e then
        (if currentOf e = CpuSt.Running then st.cpu_run_intervals e.cpu ++ [(s0, none)]
         else st.cpu_run_intervals e.cpu)
      else
        (if currentOf e = CpuSt.Running then
           st.cpu_run_intervals e.cpu ++ [(s0, some s0), (e.time, none)]
         else st.cpu_run_intervals e.cpu ++ [(s0, some e.time)])) := by
  have hsd : (stepStartTime st e).getD e.time = s0 := by
    rw [stepStartTime, if_neg (by omega), hs]
    rfl
  simp [stepNewIntervals, h, hsd]

theorem stepNewIntervals_init (e : SchedEvent) :
    stepNewIntervals initState e =
      (if currentOf e = priorOf e then
        (if currentOf e = CpuSt.Running then [(e.time, none)] else [])
      else
        (if currentOf e = CpuSt.Running then [(e.time, some e.time), (e.time, none)]
         else [(e.time, some e.time)])) := by
  simp [stepNewIntervals, initState, stepStartTime]

/-- For a CPU with a known state, one step preserves nonemptiness and the head
start of its interval list. -/
theorem stepNewIntervals_known_head {st : EngineState} {e : SchedEvent} {old : CpuSt}
    (h : st.cpu_state e.cpu = some old) (hne : st.cpu_run_intervals e.cpu ≠ []) :
    stepNewIntervals st e ≠ [] ∧
      headStart (stepNewIntervals st e) = headStart (st.cpu_run_intervals e.cpu) := by
  by_cases hco : currentOf e = old
  · rw [stepNewIntervals_known_same h hco]
    exact ⟨hne, rfl⟩
  · cases old with
    | Idle =>
        have hrun : currentOf e = CpuSt.Running := by
          cases hcur : currentOf e
          · rfl
          · exact absurd hcur hco
        rw [stepNewIntervals_idle_run h hrun]
        exact ⟨by simp, headStart_append_of_ne_nil hne⟩
    | Running =>
        have hidle : currentOf e = CpuSt.Idle := by
          cases hcur : currentOf e
          · exact absurd hcur hco
          · rfl
        rw [stepNewIntervals_run_idle h hidle]
        exact ⟨closeLast_ne_nil hne, headStart_closeLast _ _⟩

theorem lastOf_eq_getLast {evs : List SchedEvent} {x : SchedEvent}
    (hx : evs.getLast? = some x) : lastOf evs = x.time := by
  simp [lastOf, hx]

theorem sorted_concat_facts {evs : List SchedEvent} {e : SchedEvent} (hne : evs ≠ [])
    (hs : List.Chain' (fun a b => a.time ≤ b.time) (evs ++ [e])) :
    List.Chain' (fun a b => a.time ≤ b.time) evs ∧ lastOf evs ≤ e.time := by
  rw [List.chain'_append] at hs
  refine ⟨hs.1, ?_⟩
  have hsome : evs.getLast?.isSome := List.getLast?_isSome.2 hne
  obtain ⟨x, hx⟩ := Option.isSome_iff_exists.1 hsome
  have hr := hs.2.2 x hx e rfl
  rw [lastOf_eq_getLast hx]
  exact hr

/-- The reconstruction invariant holds after any nonempty, time-sorted trace. -/
theorem engInv_processEvents (evs : List SchedEvent) :
    evs ≠ [] → List.Chain' (fun a b => a.time ≤ b.time) evs →
    EngInv evs (processEvents evs) := by
  induction evs using List.reverseRecOn with
  | nil => intro h _; exact absurd rfl h
  | append_singleton evs e ih =>
    intro _ hsort
    by_cases hevs : evs = []
    · subst hevs
      show EngInv [e] (step initState e)
      have hl : lastOf [e] = e.time := by simp [lastOf]
      have hs0 : startOf [e] = e.time := rfl
      refine ⟨?_, ?_, ?_, ?_, ?_, ?_, ?_, ?_⟩
      · show stepStartTime initState e = some (startOf [e])
        simp [stepStartTime, initState, startOf]
      · simp [step, initState]
      · rw [hs0, hl]
      · intro c
        by_cases hc : c = e.cpu
        · subst hc
          rw [step_cpu_state_self]
          constructor
          · intro h; exact absurd h (stepNewState_ne_none _ _)
          · intro h; simp at h
        · rw [step_cpu_state_other hc]
          constructor
          · intro _; simp [Ne.symm hc]
          · intro _; rfl
      · intro c h
        by_cases hc : c = e.cpu
        · subst hc; rw [step_cpu_state_self] at h
          exact absurd h (stepNewState_ne_none _ _)
        · rw [step_intervals_other hc]; rfl
      · intro c h
        by_cases hc : c = e.cpu
        · subst hc
          rw [step_cpu_state_self, stepNewState_unknown rfl] at h
          have hcur : currentOf e = CpuSt.Running := by injection h
          rw [step_intervals_self, stepNewIntervals_init, hs0, hl]
          by_cases hpr : currentOf e = priorOf e
          · rw [if_pos hpr, if_pos hcur]
            exact ChainOp.single le_rfl le_rfl
          · rw [if_neg hpr, if_pos hcur]
            exact ChainOp.cons le_rfl le_rfl le_rfl (ChainOp.single le_rfl le_rfl)
        · rw [step_cpu_state_other hc] at h
          simp [initState] at h
      · intro c h
        by_cases hc : c = e.cpu
        · subst hc
          rw [step_cpu_state_self, stepNewState_unknown rfl] at h
          have hcur : currentOf e = CpuSt.Idle := by injection h
          rw [step_intervals_self, stepNewIntervals_init, hs0, hl]
          by_cases hpr : currentOf e = priorOf e
          · rw [if_pos hpr, if_neg (by simp [hcur])]
            exact ChainCl.nil _ _
          · rw [if_neg hpr, if_neg (by simp [hcur])]
            exact ChainCl.cons le_rfl le_rfl le_rfl (ChainCl.nil _ _)
        · rw [step_cpu_state_other hc] at h
          simp [initState] at h
      · intro c f hf hP
        by_cases hc : c = e.cpu
        · subst hc
          have hfe : e = f := by simpa using hf
          subst hfe
          rw [step_intervals_self, stepNewIntervals_init, hs0]
          by_cases hcur : currentOf e = CpuSt.Running
          · by_cases hpr : currentOf e = priorOf e
            · rw [if_pos hpr, if_pos hcur]
              exact ⟨by simp, rfl⟩
            · rw [if_neg hpr, if_pos hcur]
              exact ⟨by simp, rfl⟩
          · have hcur' : currentOf e = CpuSt.Idle := by
              cases h' : currentOf e with
              | Running => exact absurd h' hcur
              | Idle => rfl
            have hnr : ¬ 0 < e.nr_running := currentOf_idle.1 hcur'
            have hprior : 0 < priorNr e := hP.resolve_left hnr
            have hpr : currentOf e ≠ priorOf e := by
              rw [hcur', priorOf_running.2 hprior]
              simp
            rw [if_neg hpr, if_neg hcur]
            exact ⟨by simp, rfl⟩
        · rw [show ([e].filter (fun x => x.cpu = c)) = [] by simp [Ne.symm hc]] at hf
          simp at hf
    · obtain ⟨hsort1, hlast⟩ := sorted_concat_facts hevs hsort
      have hI := ih hevs hsort1
      rw [processEvents_concat]
      have hS : startOf (evs ++ [e]) = startOf evs := startOf_concat e hevs
      have hL : lastOf (evs ++ [e]) = e.time := lastOf_concat evs e
      have hSL : startOf evs ≤ e.time := le_trans hI.lo_le_hi hlast
      refine ⟨?_, ?_, ?_, ?_, ?_, ?_, ?_, ?_⟩
      · rw [step_start_time_of_count_ne hI.count_ne, hI.start_eq, hS]
      · simp [step]
      · rw [hS, hL]; exact hSL
      · intro c
        rw [List.filter_append]
        by_cases hc : c = e.cpu
        · subst hc
          rw [step_cpu_state_self]
          constructor
          · intro h; exact absurd h (stepNewState_ne_none _ _)
          · intro h; exfalso; simp at h
        · rw [step_cpu_state_other hc]
          rw [show ([e].filter (fun x => x.cpu = c)) = [] by simp [Ne.symm hc],
            List.append_nil]
          exact hI.state_none c
      · intro c h
        by_cases hc : c = e.cpu
        · subst hc; rw [step_cpu_state_self] at h
          exact absurd h (stepNewState_ne_none _ _)
        · rw [step_intervals_other hc]
          exact hI.none_nil c (by rwa [step_cpu_state_other hc] at h)
      · intro c h
        rw [hS, hL]
        by_cases hc : c = e.cpu
        · subst hc
          rw [step_intervals_self]
          rw [step_cpu_state_self] at h
          cases hsc : (processEvents evs).cpu_state e.cpu with
          | some old =>
              rw [stepNewState_known hsc] at h
              by_cases hco : currentOf e = old
              · rw [if_pos hco] at h
                have hold : old = CpuSt.Running := by injection h
                subst hold
                rw [stepNewIntervals_known_same hsc hco]
                exact (hI.run_chain _ hsc).mono_op hlast
              · rw [if_neg hco] at h
                have hcur : currentOf e = CpuSt.Running := by injection h
                have hold : old = CpuSt.Idle := by
                  cases old with
                  | Running => exact absurd hcur hco
                  | Idle => rfl
                subst hold
                rw [stepNewIntervals_idle_run hsc hcur]
                exact (hI.idle_chain _ hsc).append_open hI.lo_le_hi hlast
          | none =>
              rw [stepNewState_unknown hsc] at h
              have hcur : currentOf e = CpuSt.Running := by injection h
              rw [stepNewIntervals_unknown hsc hI.start_eq hI.count_ne,
                hI.none_nil _ hsc]
              by_cases hpr : currentOf e = priorOf e
              · rw [if_pos hpr, if_pos hcur]
                simp only [List.nil_append]
                exact ChainOp.single le_rfl hSL
              · rw [if_neg hpr, if_pos hcur]
                simp only [List.nil_append]
                exact ChainOp.cons le_rfl le_rfl hSL (ChainOp.single hSL le_rfl)
        · rw [step_intervals_other hc]
          rw [step_cpu_state_other hc] at h
          exact (hI.run_chain c h).mono_op hlast
      · intro c h
        rw [hS, hL]
        by_cases hc : c = e.cpu
        · subst hc
          rw [step_intervals_self]
          rw [step_cpu_state_self] at h
          cases hsc : (processEvents evs).cpu_state e.cpu with
          | some old =>
              rw [stepNewState_known hsc] at h
              by_cases hco : currentOf e = old
              · rw [if_pos hco] at h
                have hold : old = CpuSt.Idle := by injection h
                subst hold
                rw [stepNewIntervals_known_same hsc hco]
                exact (hI.idle_chain _ hsc).mono_cl hlast
              · rw [if_neg hco] at h
                have hcur : currentOf e = CpuSt.Idle := by injection h
                have hold : old = CpuSt.Running := by
                  cases old with
                  | Running => rfl
                  | Idle => exact absurd hcur hco
                subst hold
                rw [stepNewIntervals_run_idle hsc hcur]
                exact (hI.run_chain _ hsc).close hlast
          | none =>
              rw [stepNewState_unknown hsc] at h
              have hcur : currentOf e = CpuSt.Idle := by injection h
              rw [stepNewIntervals_unknown hsc hI.start_eq hI.count_ne,
                hI.none_nil _ hsc]
              by_cases hpr : currentOf e = priorOf e
              · rw [if_pos hpr, if_neg (by simp [hcur])]
                exact ChainCl.nil _ _
              · rw [if_neg hpr, if_neg (by simp [hcur])]
                simp only [List.nil_append]
                exact ChainCl.cons le_rfl hSL le_rfl (ChainCl.nil _ _)
        · rw [step_intervals_other hc]
          rw [step_cpu_state_other hc] at h
          exact (hI.idle_chain c h).mono_cl hlast
      · intro c f hf hP
        rw [hS]
        rw [List.filter_append] at hf
        by_cases hc : c = e.cpu
        · subst hc
          by_cases hpre : evs.filter (fun x => x.cpu = e.cpu) = []
          · rw [hpre, List.nil_append] at hf
            have hfe : e = f := by simpa using hf
            subst hfe
            have hsc : (processEvents evs).cpu_state e.cpu = none :=
              (hI.state_none _).2 hpre
            rw [step_intervals_self,
              stepNewIntervals_unknown hsc hI.start_eq hI.count_ne,
              hI.none_nil _ hsc]
            by_cases hcur : currentOf e = CpuSt.Running
            · by_cases hpr : currentOf e = priorOf e
              · rw [if_pos hpr, if_pos hcur]
                exact ⟨by simp, rfl⟩
              · rw [if_neg hpr, if_pos hcur]
                exact ⟨by simp, rfl⟩
            · have hcur' : currentOf e = CpuSt.Idle := by
                cases h' : currentOf e with
                | Running => exact absurd h' hcur
                | Idle => rfl
              have hnr : ¬ 0 < e.nr_running := currentOf_idle.1 hcur'
              have hprior : 0 < priorNr e := hP.resolve_left hnr
              have hpr : currentOf e ≠ priorOf e := by
                rw [hcur', priorOf_running.2 hprior]
                simp
              rw [if_neg hpr, if_neg hcur]
              exact ⟨by simp, rfl⟩
          · obtain ⟨p, ps, hps⟩ := List.exists_cons_of_ne_nil hpre
            rw [hps] at hf
            simp only [List.cons_append, List.head?_cons] at hf
            have hpf : (evs.filter (fun x => x.cpu = e.cpu)).head? = some f := by
              rw [hps, List.head?_cons]
              exact hf
            have hbase := hI.first_ok _ f hpf hP
            cases hsc : (processEvents evs).cpu_state e.cpu with
            | none => exact absurd ((hI.state_none _).1 hsc) hpre
            | some old =>
                rw [step_intervals_self]
                have hh := stepNewIntervals_known_head hsc hbase.1
                exact ⟨hh.1, hh.2.trans hbase.2⟩
        · rw [show ([e].filter (fun x => x.cpu = c)) = [] by simp [Ne.symm hc],
            List.append_nil] at hf
          rw [step_intervals_other hc]
          exact hI.first_ok c f hf hP

theorem runEngine_eq {evs : List SchedEvent} (hne : evs ≠ []) :
    runEngine evs = finalizeEngine (processEvents evs) (lastOf evs) := by
  obtain ⟨x, hx⟩ := Option.isSome_iff_exists.1 (List.getLast?_isSome.2 hne)
  rw [runEngine, hx, lastOf_eq_getLast hx]

theorem finalize_intervals (st : EngineState) (stop : ℚ) (c : ℕ) :
    (finalizeEngine st stop).cpu_run_intervals c =
      match st.cpu_state c with
      | some CpuSt.Running => closeLast stop (st.cpu_run_intervals c)
      | some CpuSt.Idle => st.cpu_run_intervals c ++ [(stop, some stop)]
      | none => st.cpu_run_intervals c := rfl

/-- Shape of a CPU's interval list after finalize: a closed chain inside
`[start_time, stop_time]`; nonempty with last end exactly `stop_time` whenever
the CPU was observed; empty whenever it was not; head start preserved from the
pre-finalize list when that was nonempty. -/
theorem final_props (evs : List SchedEvent) (hne : evs ≠ [])
    (hsort : List.Chain' (fun a b => a.time ≤ b.time) evs) (c : ℕ) :
    ChainCl (startOf evs) (lastOf evs) ((runEngine evs).cpu_run_intervals c) ∧
    ((processEvents evs).cpu_state c ≠ none →
      (runEngine evs).cpu_run_intervals c ≠ [] ∧
      lastEnd ((runEngine evs).cpu_run_intervals c) = lastOf evs) ∧
    ((processEvents evs).cpu_state c = none → (runEngine evs).cpu_run_intervals c = []) ∧
    ((processEvents evs).cpu_run_intervals c ≠ [] →
      headStart ((runEngine evs).cpu_run_intervals c)
        = headStart ((processEvents evs).cpu_run_intervals c)) := by
  have hI := engInv_processEvents evs hne hsort
  rw [runEngine_eq hne, finalize_intervals]
  cases hsc : (processEvents evs).cpu_state c with
  | none =>
      rw [hI.none_nil c hsc]
      exact ⟨ChainCl.nil _ _, fun h => absurd rfl h, fun _ => rfl, fun h => absurd rfl h⟩
  | some old =>
      cases old with
      | Running =>
          have hop := hI.run_chain c hsc
          refine ⟨hop.close le_rfl, fun _ => ⟨closeLast_ne_nil hop.ne_nil,
            lastEnd_closeLast hop.ne_nil⟩, fun h => absurd h (by simp [hsc]), fun _ =>
            headStart_closeLast _ _⟩
      | Idle =>
          have hcl := hI.idle_chain c hsc
          refine ⟨hcl.append_closed hI.lo_le_hi, fun _ => ⟨by simp,
            lastEnd_concat _ _⟩, fun h => absurd h (by simp [hsc]), fun h =>
            headStart_append_of_ne_nil h⟩

/-! ### Diagnostic membership -/

theorem mem_stepDiags_arith {st : EngineState} {e : SchedEvent} :
    (⟨DiagKind.arithmeticMismatch, e.cpu, e.time⟩ : Diag) ∈ stepDiags st e ↔
      arithFlag st e = true := by
  unfold stepDiags
  constructor
  · intro h
    rcases List.mem_append.1 h with h1 | h2
    · rcases List.mem_append.1 h1 with h3 | h4
      · by_cases hng : priorNr e < 0
        · rw [if_pos hng] at h3; simp at h3
        · rw [if_neg hng] at h3; simp at h3
      · by_cases hfa : arithFlag st e
        · exact hfa
        · rw [if_neg (by simpa using hfa)] at h4; simp at h4
    · by_cases hfs : stateFlag st e
      · rw [if_pos hfs] at h2; simp at h2
      · rw [if_neg (by simpa using hfs)] at h2; simp at h2
  · intro h
    simp [h]

theorem mem_stepDiags_neg {st : EngineState} {e : SchedEvent} :
    (⟨DiagKind.negativePriorQueueLength, e.cpu, e.time⟩ : Diag) ∈ stepDiags st e ↔
      priorNr e < 0 := by
  unfold stepDiags
  constructor
  · intro h
    rcases List.mem_append.1 h with h1 | h2
    · rcases List.mem_append.1 h1 with h3 | h4
      · by_cases hng : priorNr e < 0
        · exact hng
        · rw [if_neg hng] at h3; simp at h3
      · by_cases hfa : arithFlag st e
        · rw [if_pos hfa] at h4; simp at h4
        · rw [if_neg (by simpa using hfa)] at h4; simp at h4
    · by_cases hfs : stateFlag st e
      · rw [if_pos hfs] at h2; simp at h2
      · rw [if_neg (by simpa using hfs)] at h2; simp at h2
  · intro h
    simp [h]

theorem mem_stepDiags_state {st : EngineState} {e : SchedEvent} :
    (⟨DiagKind.stateMismatch, e.cpu, e.time⟩ : Diag) ∈ stepDiags st e ↔
      stateFlag st e = true := by
  unfold stepDiags
  constructor
  · intro h
    rcases List.mem_append.1 h with h1 | h2
    · rcases List.mem_append.1 h1 with h3 | h4
      · by_cases hng : priorNr e < 0
        · rw [if_pos hng] at h3; simp at h3
        · rw [if_neg hng] at h3; simp at h3
      · by_cases hfa : arithFlag st e
        · rw [if_pos hfa] at h4; simp at h4
        · rw [if_neg (by simpa using hfa)] at h4; simp at h4
    · by_cases hfs : stateFlag st e
      · exact hfs
      · rw [if_neg (by simpa using hfs)] at h2; simp at h2
  · intro h
    simp [h]

/-! ### Claim C2 -/

/-- Claim C2 (confirmed): when an event arrives for a CPU with a previously
observed queue length `p`, an ArithmeticMismatch finding is emitted if and only
if `queue_len − p ≠ delta`, and the CPU's tracked queue length becomes the
event's `queue_len` regardless; in particular, for CPU0 events
`(t=1.0, change=+1, nr=1)` then `(t=2.0, change=+1, nr=1)`, exactly one
ArithmeticMismatch finding is produced, at t=2.0, and the CPU remains Running
with tracked queue length 1. -/
theorem C2_arithmetic_check :
    (∀ (st : EngineState) (e : SchedEvent) (p : ℕ),
      st.cpu_nr_running e.cpu = some p →
      ((⟨DiagKind.arithmeticMismatch, e.cpu, e.time⟩ : Diag) ∈ stepDiags st e ↔
        (e.nr_running : ℤ) - (p : ℤ) ≠ e.change) ∧
      (step st e).cpu_nr_running e.cpu = some e.nr_running) ∧
    (processEvents [⟨7,1,0,1,1⟩, ⟨7,2,0,1,1⟩]).diags
      = [⟨DiagKind.arithmeticMismatch, 0, 2⟩] ∧
    (processEvents [⟨7,1,0,1,1⟩, ⟨7,2,0,1,1⟩]).cpu_state 0 = some CpuSt.Running ∧
    (processEvents [⟨7,1,0,1,1⟩, ⟨7,2,0,1,1⟩]).cpu_nr_running 0 = some 1 := by
  refine ⟨?_, by decide, by decide, by decide⟩
  intro st e p hp
  constructor
  · rw [mem_stepDiags_arith]
    simp [arithFlag, hp]
  · simp [step]

/-- Witness for C2: the general conjunct applied at the example's second event,
with the previously observed queue length 1 in place. -/
theorem C2_witness :
    (⟨DiagKind.arithmeticMismatch, 0, 2⟩ : Diag)
      ∈ stepDiags (processEvents [⟨7,1,0,1,1⟩]) ⟨7,2,0,1,1⟩ :=
  ((C2_arithmetic_check.1 (processEvents [⟨7,1,0,1,1⟩]) ⟨7,2,0,1,1⟩ 1
    (by decide)).1).mpr (by decide)

/-! ### Claim C3 -/

/-- Counterexample to claim C3: for CPU0 events `(t=1, change=+1, nr=1)` then
`(t=2, change=+3, nr=1)` the second event is flagged by the arithmetic check
(computed change 0 ≠ claimed 3), yet the negative-prior diagnostic
(`nr_running − change = −2 < 0`, lines 119-122) is still emitted for it — the
claim asserts that when the arithmetic check flags an event no
NegativePriorQueueLength finding is emitted for it. -/
theorem C3_counterexample :
    (processEvents [⟨7,1,0,1,1⟩, ⟨7,2,0,3,1⟩]).diags
      = [⟨DiagKind.negativePriorQueueLength, 0, 2⟩,
         ⟨DiagKind.arithmeticMismatch, 0, 2⟩] ∧
    (⟨DiagKind.negativePriorQueueLength, 0, 2⟩ : Diag)
      ∈ (processEvents [⟨7,1,0,1,1⟩, ⟨7,2,0,3,1⟩]).diags := by
  exact ⟨by decide, by decide⟩

/-- Claim C3 (amended): the NegativePriorQueueLength diagnostic is emitted for
every event with `queue_len − delta < 0`, unconditionally and independently of
the arithmetic check, and it is never counted among the inconsistent events;
only the StateMismatch check is gated by the arithmetic check: when the
arithmetic check did not flag the event, a counted StateMismatch finding is
emitted iff the tracked state contradicts the implied prior queue length
(Running with implied prior 0, or Idle with implied prior > 0); when the
arithmetic check flagged the event, no StateMismatch is emitted for it. -/
theorem C3_amended (st : EngineState) (e : SchedEvent) :
    ((⟨DiagKind.negativePriorQueueLength, e.cpu, e.time⟩ : Diag) ∈ stepDiags st e ↔
      priorNr e < 0) ∧
    (arithFlag st e = true →
      (⟨DiagKind.stateMismatch, e.cpu, e.time⟩ : Diag) ∉ stepDiags st e) ∧
    (arithFlag st e = false → ∀ old, st.cpu_state e.cpu = some old →
      ((⟨DiagKind.stateMismatch, e.cpu, e.time⟩ : Diag) ∈ stepDiags st e ↔
        ((old = CpuSt.Running ∧ priorNr e = 0) ∨ (old = CpuSt.Idle ∧ 0 < priorNr e)))) ∧
    (arithFlag st e = false → stateFlag st e = false →
      (step st e).inconsistent_events = st.inconsistent_events) := by
  refine ⟨mem_stepDiags_neg, ?_, ?_, ?_⟩
  · intro ha hmem
    rw [mem_stepDiags_state] at hmem
    rw [stateFlag, if_pos ha] at hmem
    exact Bool.noConfusion hmem
  · intro ha old hold
    rw [mem_stepDiags_state, stateFlag, if_neg (by simp [ha]), hold]
    simp
  · intro ha hs
    simp [step, stepInconsistent, ha, hs]

/-- Witness for C3 (amended): at the counterexample's second event, the
negative-prior diagnostic is emitted (implied prior −2 < 0) even though the
arithmetic check flagged the event. -/
theorem C3_witness :
    (⟨DiagKind.negativePriorQueueLength, 0, 2⟩ : Diag)
      ∈ stepDiags (processEvents [⟨7,1,0,1,1⟩]) ⟨7,2,0,3,1⟩ :=
  (C3_amended (processEvents [⟨7,1,0,1,1⟩]) ⟨7,2,0,3,1⟩).1.mpr (by decide)

/-! ### Claim C1 -/

/-- Counterexample to claim C1: in the trace CPU0 (t=1, +1, nr=1), CPU1
(t=2, 0, nr=0), CPU0 (t=3, −1, nr=0), CPU1 has one parsed event, yet its final
utilization is running 0 s + idle 0 s = 0 while stop−start = 2: a CPU whose
first event leaves it Idle with implied idle prior state gets no interval until
finalize's zero-length `(stop, stop)`, and the walk then counts nothing, so the
claimed invariant fails by 2 seconds (far beyond the 1e-9 tolerance). -/
theorem C1_counterexample :
    (runEngine [⟨7,1,0,1,1⟩, ⟨7,2,1,0,0⟩, ⟨7,3,0,-1,0⟩]).cpu_run_intervals 1
      = [(3, some 3)] ∧
    (cpuUtil ((runEngine [⟨7,1,0,1,1⟩, ⟨7,2,1,0,0⟩, ⟨7,3,0,-1,0⟩]).cpu_run_intervals 1)).1
      + (cpuUtil ((runEngine [⟨7,1,0,1,1⟩, ⟨7,2,1,0,0⟩, ⟨7,3,0,-1,0⟩]).cpu_run_intervals 1)).2
      = 0 ∧
    lastOf [(⟨7,1,0,1,1⟩ : SchedEvent), ⟨7,2,1,0,0⟩, ⟨7,3,0,-1,0⟩]
      - startOf [(⟨7,1,0,1,1⟩ : SchedEvent), ⟨7,2,1,0,0⟩, ⟨7,3,0,-1,0⟩] = 2 ∧
    (0 : ℚ) ≠ 2 := by
  have h : (runEngine [⟨7,1,0,1,1⟩, ⟨7,2,1,0,0⟩, ⟨7,3,0,-1,0⟩]).cpu_run_intervals 1
      = [(3, some 3)] := by decide
  refine ⟨h, ?_, ?_, by norm_num⟩
  · rw [h]
    norm_num [cpuUtil, utilAux]
  · show (3 : ℚ) - 1 = 2
    norm_num

/-- Claim C1 (amended): for every nonempty trace with non-decreasing positive
timestamps, every CPU whose FIRST event has `queue_len > 0` or implied prior
queue length > 0 — the cases whose reconstruction anchors at `start_time` —
satisfies running_seconds + idle_seconds = stop_time − start_time exactly (the
model computes in exact rationals, subsuming the 1e-9 tolerance).  A CPU whose
first event leaves it Idle with implied idle prior drops its leading idle gap
(see the counterexample), so the claim's unrestricted form is false. -/
theorem C1_amended (evs : List SchedEvent) (hne : evs ≠ [])
    (hsort : List.Chain' (fun a b => a.time ≤ b.time) evs)
    (hpos : 0 < startOf evs) (c : ℕ) (f : SchedEvent)
    (hf : (evs.filter (fun x => x.cpu = c)).head? = some f)
    (hfp : 0 < f.nr_running ∨ 0 < priorNr f) :
    (cpuUtil ((runEngine evs).cpu_run_intervals c)).1
      + (cpuUtil ((runEngine evs).cpu_run_intervals c)).2
      = lastOf evs - startOf evs := by
  have hI := engInv_processEvents evs hne hsort
  have hfin := final_props evs hne hsort c
  have hco := hI.first_ok c f hf hfp
  have hnn : (processEvents evs).cpu_state c ≠ none := fun h => hco.1 (hI.none_nil c h)
  have hF := hfin.2.1 hnn
  rw [cpuUtil_sum hfin.1 hpos hF.1, hF.2, hfin.2.2.2 hco.1, hco.2]

/-- Witness for C1 (amended) at the spec's own two-event example: CPU0
`(t=1, +1, nr=1)`, `(t=3, −1, nr=0)` gives running + idle = 2 = stop − start. -/
theorem C1_witness :
    (cpuUtil ((runEngine [⟨7,1,0,1,1⟩, ⟨7,3,0,-1,0⟩]).cpu_run_intervals 0)).1
      + (cpuUtil ((runEngine [⟨7,1,0,1,1⟩, ⟨7,3,0,-1,0⟩]).cpu_run_intervals 0)).2
      = 2 :=
  (C1_amended [⟨7,1,0,1,1⟩, ⟨7,3,0,-1,0⟩] (by decide)
    (by norm_num [List.chain'_cons, List.chain'_singleton])
    (by norm_num [startOf]) 0 ⟨7,1,0,1,1⟩ (by decide) (by decide)).trans
    (by show (3 : ℚ) - 1 = 2; norm_num)

/-! ### Claim C4 -/

/-- Counterexample to claim C4: for the single first event
`(t=1, change=+1, nr=1)` (implied prior queue length 0, hence implied prior
Idle), the claim says nothing is synthesized for the pre-event period, so the
interval list would be just the opened `[(1, open)]`; the code additionally
appends the zero-length anchor `(start_time, start_time)` first. -/
theorem C4_counterexample :
    (processEvents [⟨7,1,0,1,1⟩]).cpu_run_intervals 0 = [(1, some 1), (1, none)] ∧
    [((1:ℚ), some (1:ℚ)), ((1:ℚ), (none : Option ℚ))]
      ≠ [((1:ℚ), (none : Option ℚ))] :=
  ⟨by decide, by decide⟩

/-- Claim C4 (amended): for the first event ever seen for a CPU: if the implied
prior queue length is positive, an interval starting at `start_time` is
synthesized and the event's own transition is applied to it (left open when the
event is Running, closed at the event's time when it is Idle); if the implied
prior queue length is ≤ 0 and the event itself is Running, a zero-length
interval `[start_time, start_time]` is synthesized before opening the event's
own interval; only when both the implied prior state and the event's own state
are Idle is nothing synthesized. -/
theorem C4_amended (st : EngineState) (e : SchedEvent) (s0 : ℚ)
    (hsc : st.cpu_state e.cpu = none) (hs : st.start_time = some s0)
    (hcn : st.events_count ≠ 0) (hl : st.cpu_run_intervals e.cpu = []) :
    (step st e).cpu_run_intervals e.cpu =
      (if 0 < priorNr e then
        (if 0 < e.nr_running then [(s0, none)] else [(s0, some e.time)])
      else
        (if 0 < e.nr_running then [(s0, some s0), (e.time, none)] else [])) := by
  rw [step_intervals_self, stepNewIntervals_unknown hsc hs hcn, hl]
  by_cases hp : 0 < priorNr e <;> by_cases hn : 0 < e.nr_running <;>
    simp [currentOf, priorOf, hp, hn]

/-- Witness for C4 (amended): a first event (t=2, +1, nr=1) for CPU0 on an
engine whose `start_time` is 1 yields the anchor `(1,1)` plus the open interval
at 2. -/
theorem C4_witness :
    (step (processEvents [⟨7,1,1,1,1⟩]) ⟨7,2,0,1,1⟩).cpu_run_intervals 0
      = [(1, some 1), (2, none)] :=
  (C4_amended (processEvents [⟨7,1,1,1,1⟩]) ⟨7,2,0,1,1⟩ 1 (by decide) (by decide)
    (by decide) (by decide)).trans (by decide)

/-! ### Claim C5 -/

/-- Counterexample to claim C5: in the trace CPU0 (t=1, +1, nr=1),
(t=2, −1, nr=0), CPU1 is never observed (state `Unknown`), and after finalize
its interval list is empty — the claim asserts a zero-length interval
`[stop, stop] = [(2, 2)]` is appended for Unknown CPUs too, but the finalize
loop iterates only over CPUs present in `cpu_state`. -/
theorem C5_counterexample :
    (runEngine [⟨7,1,0,1,1⟩, ⟨7,2,0,-1,0⟩]).cpu_run_intervals 1 = [] ∧
    ([] : List (ℚ × Option ℚ)) ≠ [((2:ℚ), some (2:ℚ))] :=
  ⟨by decide, by decide⟩

/-- Claim C5 (amended): at finalize, every CPU whose last known state is
Running has its open interval closed at `stop_time` (the timestamp of the last
accepted event), and every CPU whose last known state is Idle gets the single
zero-length interval `[stop_time, stop_time]` appended; a CPU never observed
(absent from `cpu_state`) is untouched and ends with an empty interval list. -/
theorem C5_amended (evs : List SchedEvent) (hne : evs ≠ [])
    (hsort : List.Chain' (fun a b => a.time ≤ b.time) evs) (c : ℕ) :
    ((processEvents evs).cpu_state c = some CpuSt.Running →
      ∃ l s, (processEvents evs).cpu_run_intervals c = l ++ [(s, none)] ∧
        (runEngine evs).cpu_run_intervals c = l ++ [(s, some (lastOf evs))]) ∧
    ((processEvents evs).cpu_state c = some CpuSt.Idle →
      (runEngine evs).cpu_run_intervals c
        = (processEvents evs).cpu_run_intervals c
            ++ [(lastOf evs, some (lastOf evs))]) ∧
    ((processEvents evs).cpu_state c = none →
      (runEngine evs).cpu_run_intervals c = []) := by
  have hI := engInv_processEvents evs hne hsort
  rw [runEngine_eq hne, finalize_intervals]
  refine ⟨?_, ?_, ?_⟩
  · intro h
    rw [h]
    obtain ⟨l, s, hdec, hcl⟩ := (hI.run_chain c h).decomp (lastOf evs)
    exact ⟨l, s, hdec, hcl⟩
  · intro h
    rw [h]
  · intro h
    rw [h]
    exact hI.none_nil c h

/-- Witness for C5 (amended), Idle case: after CPU0 (t=1, +1, nr=1),
(t=3, −1, nr=0), finalize appends the zero-length `(stop, stop)` interval. -/
theorem C5_witness :
    (runEngine [⟨7,1,0,1,1⟩, ⟨7,3,0,-1,0⟩]).cpu_run_intervals 0
      = (processEvents [⟨7,1,0,1,1⟩, ⟨7,3,0,-1,0⟩]).cpu_run_intervals 0
          ++ [(lastOf [(⟨7,1,0,1,1⟩ : SchedEvent), ⟨7,3,0,-1,0⟩],
               some (lastOf [(⟨7,1,0,1,1⟩ : SchedEvent), ⟨7,3,0,-1,0⟩]))] :=
  (C5_amended [⟨7,1,0,1,1⟩, ⟨7,3,0,-1,0⟩] (by decide)
    (by norm_num [List.chain'_cons, List.chain'_singleton]) 0).2.1 (by decide)

/-! ### Claim C6 -/

/-- Counterexample to claim C6: in the trace CPU0 (t=5, +1, nr=1) then CPU1
(t=1, +1, nr=1), each CPU's own timestamps are (trivially) non-decreasing, yet
`stop_time` is 1 — the timestamp of the last event of the whole file — so
finalize closes CPU0's open interval at 1 < 5, producing the interval (5, 1)
with start > end.  The claim's per-CPU monotonicity hypothesis is too weak;
global monotonicity is required. -/
theorem C6_counterexample :
    List.Chain' (fun a b => a.time ≤ b.time)
      (([⟨7,5,0,1,1⟩, ⟨7,1,1,1,1⟩] : List SchedEvent).filter (fun x => x.cpu = 0)) ∧
    List.Chain' (fun a b => a.time ≤ b.time)
      (([⟨7,5,0,1,1⟩, ⟨7,1,1,1,1⟩] : List SchedEvent).filter (fun x => x.cpu = 1)) ∧
    (runEngine [⟨7,5,0,1,1⟩, ⟨7,1,1,1,1⟩]).cpu_run_intervals 0
      = [(5, some 5), (5, some 1)] ∧
    ¬ ((5:ℚ) ≤ 1) := by
  refine ⟨?_, ?_, by decide, by norm_num⟩
  · rw [show (([⟨7,5,0,1,1⟩, ⟨7,1,1,1,1⟩] : List SchedEvent).filter
        (fun x => x.cpu = 0)) = [(⟨7,5,0,1,1⟩ : SchedEvent)] by decide]
    simp
  · rw [show (([⟨7,5,0,1,1⟩, ⟨7,1,1,1,1⟩] : List SchedEvent).filter
        (fun x => x.cpu = 1)) = [(⟨7,1,1,1,1⟩ : SchedEvent)] by decide]
    simp

/-- Claim C6 (amended): for every nonempty trace whose WHOLE event stream has
non-decreasing timestamps, each CPU's interval list after finalize is ordered
by start, has start ≤ end for every interval (all closed), is pairwise
non-overlapping (each interval's end ≤ the next interval's start), and at every
point during processing all intervals except possibly the last are closed (at
most one open interval, the last). -/
theorem C6_amended (evs : List SchedEvent) (hne : evs ≠ [])
    (hsort : List.Chain' (fun a b => a.time ≤ b.time) evs) (c : ℕ) :
    ((runEngine evs).cpu_run_intervals c).Pairwise (fun a b => a.1 ≤ b.1) ∧
    (∀ p ∈ (runEngine evs).cpu_run_intervals c, ∃ q, p.2 = some q ∧ p.1 ≤ q) ∧
    ((runEngine evs).cpu_run_intervals c).Pairwise (fun a b => endOf a ≤ b.1) ∧
    (∀ pfx suf, evs = pfx ++ suf →
      ∀ p ∈ ((processEvents pfx).cpu_run_intervals c).dropLast, p.2.isSome) := by
  have hfin := final_props evs hne hsort c
  refine ⟨hfin.1.pairwise_start, hfin.1.closed, hfin.1.pairwise_sep, ?_⟩
  intro pfx suf hsub p hp
  by_cases hp0 : pfx = []
  · subst hp0
    simp [processEvents, initState] at hp
  · have hsort' : List.Chain' (fun a b => a.time ≤ b.time) pfx := by
      subst hsub
      exact (List.chain'_append.1 hsort).1
    have hI' := engInv_processEvents pfx hp0 hsort'
    cases hsc : (processEvents pfx).cpu_state c with
    | none =>
        rw [hI'.none_nil c hsc] at hp
        simp at hp
    | some old =>
        cases old with
        | Running => exact (hI'.run_chain c hsc).dropLast_closed p hp
        | Idle =>
            obtain ⟨q, hq, _⟩ :=
              (hI'.idle_chain c hsc).closed p (List.dropLast_subset _ hp)
            simp [hq]

/-- Witness for C6 (amended): order by start for CPU0 of the spec's two-event
example trace. -/
theorem C6_witness :
    ((runEngine [⟨7,1,0,1,1⟩, ⟨7,3,0,-1,0⟩]).cpu_run_intervals 0).Pairwise
      (fun a b => a.1 ≤ b.1) :=
  (C6_amended [⟨7,1,0,1,1⟩, ⟨7,3,0,-1,0⟩] (by decide)
    (by norm_num [List.chain'_cons, List.chain'_singleton]) 0).1

/-! ### Claim C9 -/

/-- The `check-nr-running.py` analysis seen from the `cpus=<N>` header on: the
header's `cpus_count` (line 84) is bound but never read again anywhere in the
script, so the engine result does not depend on it. -/
def runWithHeader (cpus_count : ℕ) (evs : List SchedEvent) : EngineState :=
  runEngine evs

/-- Counterexample to claim C9: with declared cardinality 1, the event
(t=1, cpu=7, +1, nr=1) — cpu id 7 ≥ 1 — produces no finding of any kind: no
diagnostic is printed and no inconsistent event is counted, contradicting the
claim that an out-of-range finding is emitted (the parsed `cpus_count` is never
consulted by the event loop). -/
theorem C9_counterexample :
    (runWithHeader 1 [⟨7,1,7,1,1⟩]).diags = [] ∧
    (runWithHeader 1 [⟨7,1,7,1,1⟩]).inconsistent_events 7 = 0 :=
  ⟨by decide, by decide⟩

/-- Claim C9 (amended): events whose cpu id is ≥ the declared cardinality
produce no finding at all — the declared cardinality plays no role in event
processing (the result is independent of it) — and such events are processed
normally through the reconstruction state machine. -/
theorem C9_amended :
    (∀ (n m : ℕ) (evs : List SchedEvent), runWithHeader n evs = runWithHeader m evs) ∧
    (runWithHeader 1 [⟨7,1,7,1,1⟩]).cpu_state 7 = some CpuSt.Running ∧
    (runWithHeader 1 [⟨7,1,7,1,1⟩]).cpu_run_intervals 7 = [(1, some 1), (1, some 1)] ∧
    (runWithHeader 1 [⟨7,1,7,1,1⟩]).diags = [] :=
  ⟨fun _ _ _ => rfl, by decide, by decide, by decide⟩

/-! ### Claim C7 -/

/-- One step of the source detector (0-sentinel) and of the spec-words detector
(`Option` open-window) preserve equal window lists and the correspondence
`last_imbalance_start = 0 ↔ openStart = none`, provided the step's timestamp is
positive (a zero timestamp would collide with the sentinel). -/
theorem imb_step_rel (θ : ℤ) (D : ℚ) (cst : ImbState) (sst : ImbSpecState)
    (td : ℚ × ℤ) (hpt : 0 < td.1) (h1 : cst.imbalances = sst.windows)
    (h2 : (cst.last_imbalance_start = 0 ∧ sst.openStart = none) ∨
          (cst.last_imbalance_start ≠ 0 ∧
            sst.openStart = some cst.last_imbalance_start)) :
    (imbStep θ D cst td).imbalances = (imbSpecStep θ D sst td).windows ∧
    (((imbStep θ D cst td).last_imbalance_start = 0 ∧
        (imbSpecStep θ D sst td).openStart = none) ∨
      ((imbStep θ D cst td).last_imbalance_start ≠ 0 ∧
        (imbSpecStep θ D sst td).openStart
          = some (imbStep θ D cst td).last_imbalance_start)) := by
  rcases h2 with ⟨hc0, hs0⟩ | ⟨hc0, hs0⟩
  · by_cases hθ : θ ≤ td.2
    · have hnl : ¬ td.2 < θ := not_lt.2 hθ
      refine ⟨by simp [imbStep, imbSpecStep, hθ, hc0, hs0, hnl, h1], Or.inr ⟨?_, ?_⟩⟩
      · simp only [imbStep, hθ, hc0, hnl]
        simp
        exact ne_of_gt hpt
      · simp [imbStep, imbSpecStep, hθ, hc0, hs0, hnl]
    · have hlt : td.2 < θ := not_le.1 hθ
      refine ⟨by simp [imbStep, imbSpecStep, hθ, hc0, hs0, hlt, h1], Or.inl ⟨?_, ?_⟩⟩
      · simp [imbStep, hθ, hc0, hlt]
      · simp [imbSpecStep, hθ, hs0]
  · by_cases hlt : td.2 < θ
    · have hθ : ¬ θ ≤ td.2 := not_le.2 hlt
      refine ⟨?_, Or.inl ⟨?_, ?_⟩⟩
      · by_cases hD : D ≤ td.1 - cst.last_imbalance_start
        · simp [imbStep, imbSpecStep, hθ, hlt, hc0, hs0, hD, h1]
        · simp [imbStep, imbSpecStep, hθ, hlt, hc0, hs0, hD, h1]
      · simp [imbStep, hθ, hlt, hc0]
      · simp [imbSpecStep, hlt, hs0]
    · have hθ : θ ≤ td.2 := not_lt.1 hlt
      refine ⟨?_, Or.inr ⟨?_, ?_⟩⟩
      · simp [imbStep, imbSpecStep, hlt, hc0, hs0, h1]
      · simp [imbStep, hlt, hc0]
      · simp [imbSpecStep, imbStep, hlt, hc0, hs0]

/-- The step correspondence, folded over a whole input. -/
theorem imb_fold_rel (θ : ℤ) (D : ℚ) :
    ∀ (xs : List (ℚ × ℤ)) (cst : ImbState) (sst : ImbSpecState),
      (∀ td ∈ xs, (0:ℚ) < td.1) →
      cst.imbalances = sst.windows →
      ((cst.last_imbalance_start = 0 ∧ sst.openStart = none) ∨
        (cst.last_imbalance_start ≠ 0 ∧
          sst.openStart = some cst.last_imbalance_start)) →
      (xs.foldl (imbStep θ D) cst).imbalances
          = (xs.foldl (imbSpecStep θ D) sst).windows ∧
      (((xs.foldl (imbStep θ D) cst).last_imbalance_start = 0 ∧
          (xs.foldl (imbSpecStep θ D) sst).openStart = none) ∨
        ((xs.foldl (imbStep θ D) cst).last_imbalance_start ≠ 0 ∧
          (xs.foldl (imbSpecStep θ D) sst).openStart
            = some (xs.foldl (imbStep θ D) cst).last_imbalance_start)) := by
  intro xs
  induction xs with
  | nil => intro cst sst _ h1 h2; exact ⟨h1, h2⟩
  | cons td rest ih =>
      intro cst sst hpos h1 h2
      have hstep := imb_step_rel θ D cst sst td (hpos td (by simp)) h1 h2
      exact ih _ _ (fun x hx => hpos x (by simp [hx])) hstep.1 hstep.2

/-- Over any input with positive timestamps, the source detector reports
exactly the windows described by the spec's words. -/
theorem imb_equiv (θ : ℤ) (D : ℚ) (xs : List (ℚ × ℤ))
    (hpos : ∀ td ∈ xs, (0:ℚ) < td.1) :
    reportImbalances θ D xs = specImbalances θ D xs := by
  obtain ⟨h1, h2⟩ :=
    imb_fold_rel θ D xs ⟨[], 0⟩ ⟨[], none⟩ hpos rfl (Or.inl ⟨rfl, rfl⟩)
  unfold reportImbalances specImbalances imbRun
  cases hlast : xs.getLast? with
  | none =>
      dsimp only
      rcases h2 with ⟨hc0, hs0⟩ | ⟨hc0, hs0⟩ <;> simp [hs0, h1]
  | some last =>
      dsimp only
      rcases h2 with ⟨hc0, hs0⟩ | ⟨hc0, hs0⟩
      · rw [if_neg (by simp [hc0]), hs0]
        exact h1
      · rw [hs0]
        dsimp only
        by_cases hD : D ≤ last.1
            - (xs.foldl (imbStep θ D) ⟨[], 0⟩).last_imbalance_start
        · rw [if_pos (And.intro hc0 hD), if_pos hD, h1]
        · rw [if_neg (fun hh => hD hh.2), if_neg hD, h1]

/-- Counterexample to claim C7: with threshold 2 and min_duration 1.5, spreads
2, 2, 0 at times 0, 1, 2 first reach the threshold at time 0 and drop below it
at time 2, so per the claim the window [0, 2) of duration 2 ≥ 1.5 must be
reported; the source reports nothing, because opening a window at timestamp 0
leaves the 0 sentinel in place (the spec-words detector, by contrast, reports
exactly [0, 2)). -/
theorem C7_counterexample :
    reportImbalances 2 (3/2) [(0,2),(1,2),(2,0)] = [] ∧
    specImbalances 2 (3/2) [(0,2),(1,2),(2,0)] = [(0, 2)] ∧
    ([] : List (ℚ × ℚ)) ≠ [((0:ℚ), (2:ℚ))] := by
  refine ⟨?_, ?_, by simp⟩
  · norm_num [reportImbalances, imbRun, imbStep]
  · norm_num [specImbalances, imbSpecStep]

/-- Claim C7 (amended): provided every processed timestamp is positive (the
source uses the numeric value 0 as its no-open-window sentinel, see C10), the
detector reports a window [s, e) exactly as the spec's words describe —
opening when the spread first reaches the threshold, closing when it drops
below, reporting iff the duration reaches min_duration, and emitting a
still-open window at stream end iff it already met the minimum duration; in
particular with threshold 2, spreads 0,0,2,2,2,1,0 at times 0..6 and
min_duration 1.5 exactly one window [2, 5) is reported. -/
theorem C7_amended :
    (∀ (θ : ℤ) (D : ℚ) (xs : List (ℚ × ℤ)), (∀ td ∈ xs, (0:ℚ) < td.1) →
      reportImbalances θ D xs = specImbalances θ D xs) ∧
    processImbalances 2 (3/2)
      [(0,[0,0]),(1,[0,0]),(2,[0,2]),(3,[0,2]),(4,[0,2]),(5,[0,1]),(6,[0,0])]
      = [(2,5)] := by
  refine ⟨fun θ D xs h => imb_equiv θ D xs h, ?_⟩
  rw [processImbalances,
    show (([(0,[0,0]),(1,[0,0]),(2,[0,2]),(3,[0,2]),(4,[0,2]),(5,[0,1]),(6,[0,0])] :
        List (ℚ × List ℤ)).map (fun p => (p.1, spread p.2)))
      = [(0,0),(1,0),(2,2),(3,2),(4,2),(5,1),(6,0)] from by decide]
  norm_num [reportImbalances, imbRun, imbStep]

/-- Witness for C7 (amended): the equivalence applied to a concrete
positive-timestamp input on which a window is reported. -/
theorem C7_witness :
    reportImbalances 2 (3/2) [(1,2),(2,2),(3,0)]
      = specImbalances 2 (3/2) [(1,2),(2,2),(3,0)] :=
  C7_amended.1 2 (3/2) [(1,2),(2,2),(3,0)] (by norm_num)

/-! ### Claim C10 -/

/-- One detector step either keeps the window list or appends a single window
whose start is the (nonzero) `last_imbalance_start`. -/
theorem imbStep_imbalances (θ : ℤ) (D : ℚ) (cst : ImbState) (td : ℚ × ℤ) :
    (imbStep θ D cst td).imbalances = cst.imbalances ∨
    (cst.last_imbalance_start ≠ 0 ∧
      (imbStep θ D cst td).imbalances
        = cst.imbalances ++ [(cst.last_imbalance_start, td.1)]) := by
  by_cases h2 : cst.last_imbalance_start = 0
  · by_cases h1 : θ ≤ td.2
    · left
      simp [imbStep, h1, h2, not_lt.2 h1]
    · left
      simp [imbStep, h1, h2]
  · by_cases hlt : td.2 < θ
    · have h1 : ¬ θ ≤ td.2 := not_le.2 hlt
      by_cases hD : D ≤ td.1 - cst.last_imbalance_start
      · right
        exact ⟨h2, by simp [imbStep, h1, hlt, h2, hD]⟩
      · left
        simp [imbStep, h1, hlt, h2, hD]
    · left
      simp [imbStep, h2, hlt]

/-- Every window the detector ever reports has a nonzero start. -/
theorem reportImbalances_start_ne_zero (θ : ℤ) (D : ℚ) (xs : List (ℚ × ℤ))
    {w : ℚ × ℚ} (hw : w ∈ reportImbalances θ D xs) : w.1 ≠ 0 := by
  have key : ∀ (l : List (ℚ × ℤ)) (cst : ImbState),
      (∀ v ∈ cst.imbalances, v.1 ≠ 0) →
      ∀ v ∈ (l.foldl (imbStep θ D) cst).imbalances, v.1 ≠ 0 := by
    intro l
    induction l with
    | nil => intro cst h; exact h
    | cons td rest ih =>
        intro cst h
        apply ih
        intro v hv
        rcases imbStep_imbalances θ D cst td with heq | ⟨hne, heq⟩
        · rw [heq] at hv
          exact h v hv
        · rw [heq] at hv
          rcases List.mem_append.1 hv with hv1 | hv2
          · exact h v hv1
          · rw [List.mem_singleton.1 hv2]
            exact hne
  revert hw
  unfold reportImbalances
  cases hlast : xs.getLast? with
  | none =>
      intro hw
      exact key xs ⟨[], 0⟩ (by simp) w hw
  | some last =>
      dsimp only
      intro hw
      by_cases hc : (imbRun θ D xs).last_imbalance_start ≠ 0 ∧
          D ≤ last.1 - (imbRun θ D xs).last_imbalance_start
      · rw [if_pos hc] at hw
        rcases List.mem_append.1 hw with h1 | h2
        · exact key xs ⟨[], 0⟩ (by simp) w h1
        · rw [List.mem_singleton.1 h2]
          exact hc.1
      · rw [if_neg hc] at hw
        exact key xs ⟨[], 0⟩ (by simp) w hw

/-- Claim C10 (confirmed): the imbalance detector uses the numeric value 0 as
its no-open-window sentinel: if the spread first meets or exceeds the threshold
at an event whose timestamp is exactly 0, no window is opened at that instant
(the state is unchanged), and consequently a reported imbalance window never
has start time 0. -/
theorem C10_theorem :
    (∀ (θ : ℤ) (D : ℚ) (ws : List (ℚ × ℚ)) (d : ℤ), θ ≤ d →
      (imbStep θ D ⟨ws, 0⟩ (0, d)).last_imbalance_start = 0 ∧
      (imbStep θ D ⟨ws, 0⟩ (0, d)).imbalances = ws) ∧
    (∀ (θ : ℤ) (D : ℚ) (xs : List (ℚ × ℤ)) (w : ℚ × ℚ),
      w ∈ reportImbalances θ D xs → w.1 ≠ 0) := by
  constructor
  · intro θ D ws d h
    constructor <;> simp [imbStep, h, not_lt.2 h]
  · intro θ D xs w hw
    exact reportImbalances_start_ne_zero θ D xs hw

/-- Witness for C10: a threshold-reaching event at time 0 opens nothing, and
the window (1, 3) reported on a concrete input has nonzero start. -/
theorem C10_witness :
    (imbStep 2 1 ⟨[], 0⟩ ((0 : ℚ), (2 : ℤ))).last_imbalance_start = 0 ∧
    ((1 : ℚ), (3 : ℚ)).1 ≠ 0 :=
  ⟨(C10_theorem.1 2 1 [] 2 (by norm_num)).1,
   C10_theorem.2 2 1 [(1,2),(3,0)] (1, 3)
     (by norm_num [reportImbalances, imbRun, imbStep])⟩

/-! ### Claim C8 -/

/-- Claim C8 (confirmed): for every input line that fails the event pattern,
the engine state is unchanged; a counted malformed-recognized-event diagnostic
(the warning of lines 107-109, recorded with its line number) is produced iff
the line contains the marker substring `sched_update_nr_running:`; and
processing always continues with the remaining lines — a parse failure is
never fatal. -/
theorem C8_parse_failure_dichotomy (st : RunState) (line : String)
    (hp : parseLine line = none) :
    (processLine st line).engine = st.engine ∧
    (processLine st line).malformed
      = st.malformed ++ (if containsMarker line then [st.line_count + 1] else []) ∧
    (∀ rest : List String,
      processLinesFrom st (line :: rest)
        = processLinesFrom (processLine st line) rest) := by
  refine ⟨?_, ?_, fun rest => rfl⟩
  · unfold processLine
    rw [hp]
    by_cases hm : containsMarker line <;> simp [hm]
  · unfold processLine
    rw [hp]
    by_cases hm : containsMarker line <;> simp [hm]

/-- Witness for C8: a malformed line containing the marker is counted (line
number 2 recorded); an unrelated line produces no diagnostic; both leave the
engine state untouched. -/
theorem C8_witness :
    parseLine "x sched_update_nr_running: oops" = none ∧
    containsMarker "x sched_update_nr_running: oops" = true ∧
    (processLine initRun "x sched_update_nr_running: oops").malformed = [2] ∧
    parseLine "hello" = none ∧
    containsMarker "hello" = false ∧
    (processLine initRun "hello").malformed = [] ∧
    (processLine initRun "hello").engine = initRun.engine := by
  refine ⟨by decide, by decide, ?_, by decide, by decide, ?_, ?_⟩
  · rw [(C8_parse_failure_dichotomy initRun _ (by decide)).2.1]
    decide
  · rw [(C8_parse_failure_dichotomy initRun _ (by decide)).2.1]
    decide
  · exact (C8_parse_failure_dichotomy initRun _ (by decide)).1

end NrRunning
